import Mathlib

/-!
Verification of the AES-256-GCM envelope driver (AdonisJS encryption).

The driver source (src/unnamed/part_000) is embedded shallowly below:

* Wire-level text is modelled as List Char; byte strings as List Nat with
  every byte < 256 where it matters.
* JavaScript String.prototype.split on a single-character separator is
  modelled by splitSep; the join performed by computeReturns by joinSep.
* Node's Buffer.from(s, 'hex') is modelled by hexDecodeL; it decodes the
  longest valid prefix of hex pairs and never fails, and a Node Buffer is
  always truthy, which is modelled by bufferIsFalsy being constantly false.
* AES-256-GCM itself lives in node:crypto.  It is modelled as an ideal
  authenticated cipher: a keystream xor for the ciphertext (injective in
  the IV over the first 16 positions, matching the fact that distinct IVs
  give distinct GCM keystream prefixes) together with an authentication
  tag that determines the key, IV, AAD and ciphertext up to the usual
  idealisation, so that decryption succeeds exactly when the tag matches.
* The MessageBuilder codec, the Hmac signer, the BaseDriver plumbing and
  the key derivation are code of the repository or its direct
  dependencies that is not under src/; they are modelled from the spec
  (sections 4.1-4.3 and 6) as noted on each definition.
-/

set_option maxHeartbeats 1000000

namespace AdonisEnc

/-- Split a character list at every occurrence of the separator character,
mirroring JavaScript String.prototype.split with a one-character separator
(the empty string splits to one empty field). -/
def splitSep (sep : Char) : List Char → List (List Char)
  | [] => [[]]
  | c :: cs =>
    let r := splitSep sep cs
    if c = sep then [] :: r else (c :: r.headD []) :: r.tail

theorem splitSep_ne_nil (sep : Char) (l : List Char) : splitSep sep l ≠ [] := by
  induction l with
  | nil => simp [splitSep]
  | cons c cs ih =>
    simp only [splitSep]
    split
    · simp
    · simp

theorem splitSep_append (sep : Char) (a b : List Char) :
    splitSep sep (a ++ sep :: b) = splitSep sep a ++ splitSep sep b := by
  induction a with
  | nil => simp [splitSep]
  | cons c cs ih =>
    by_cases h : c = sep
    · simp [splitSep, h, ih]
    · obtain ⟨p, ps, hcs⟩ : ∃ p ps, splitSep sep cs = p :: ps := by
        cases hcs2 : splitSep sep cs with
        | nil => exact absurd hcs2 (splitSep_ne_nil sep cs)
        | cons p ps => exact ⟨p, ps, rfl⟩
      simp only [List.cons_append, splitSep, if_neg h]
      simp only [List.append_eq]
      rw [ih, hcs]
      simp

theorem splitSep_eq_single (sep : Char) (a : List Char) (h : sep ∉ a) :
    splitSep sep a = [a] := by
  induction a with
  | nil => simp [splitSep]
  | cons c cs ih =>
    simp only [List.mem_cons, not_or] at h
    have hne : c ≠ sep := fun hc => h.1 hc.symm
    simp [splitSep, if_neg hne, ih h.2]

/-- Join a list of fields with a separator character, mirroring the
computeReturns helper of the BaseDriver (an Array.prototype.join). -/
def joinSep (sep : Char) : List (List Char) → List Char
  | [] => []
  | [x] => x
  | x :: y :: ys => x ++ sep :: joinSep sep (y :: ys)

/-- The lowercase hex character for a value below sixteen: digits for values
below ten, then letters from 'a'. -/
def hexDigitChar (n : Nat) : Char :=
  if n < 10 then Char.ofNat (48 + n) else Char.ofNat (87 + n)

/-- Lowercase hex digits, the alphabet of Node's Buffer.toString('hex'). -/
def hexOutChars : List Char := (List.range 16).map hexDigitChar

/-- Two lowercase hex characters for one byte, as Buffer.toString('hex'). -/
def byteToHex (b : Nat) : List Char := [hexDigitChar (b / 16 % 16), hexDigitChar (b % 16)]

/-- Hex encoding of a byte string, as Buffer.toString('hex'). -/
def bytesToHex : List Nat → List Char
  | [] => []
  | b :: bs => byteToHex b ++ bytesToHex bs

/-- Value of one hex character; Node accepts both cases on decoding. -/
def hexVal (c : Char) : Option Nat :=
  if 48 ≤ c.toNat ∧ c.toNat ≤ 57 then some (c.toNat - 48)
  else if 97 ≤ c.toNat ∧ c.toNat ≤ 102 then some (c.toNat - 87)
  else if 65 ≤ c.toNat ∧ c.toNat ≤ 70 then some (c.toNat - 55)
  else none

/-- Node's Buffer.from(s, 'hex'): decode hex pairs until the first invalid
pair or odd leftover, returning the bytes decoded so far.  It never fails. -/
def hexDecodeL : List Char → List Nat
  | c1 :: c2 :: rest =>
    match hexVal c1, hexVal c2 with
    | some h, some l => (16 * h + l) :: hexDecodeL rest
    | _, _ => []
  | _ => []

theorem hexVal_hexDigitChar {n : Nat} (h : n < 16) : hexVal (hexDigitChar n) = some n := by
  interval_cases n <;> decide

theorem hexDigitChar_mem {m : Nat} (hm : m < 16) : hexDigitChar m ∈ hexOutChars := by
  simp only [hexOutChars, List.mem_map]
  exact ⟨m, by simp [hm], rfl⟩

theorem mem_byteToHex_hexOutChars {c : Char} {b : Nat} (h : c ∈ byteToHex b) :
    c ∈ hexOutChars := by
  simp only [byteToHex, List.mem_cons, List.mem_singleton] at h
  rcases h with h | h | h
  · exact h ▸ hexDigitChar_mem (Nat.mod_lt _ (by omega))
  · exact h ▸ hexDigitChar_mem (Nat.mod_lt _ (by omega))
  · cases h

theorem mem_bytesToHex_hexOutChars {c : Char} {bs : List Nat} (h : c ∈ bytesToHex bs) :
    c ∈ hexOutChars := by
  induction bs with
  | nil => cases h
  | cons b bs ih =>
    simp only [bytesToHex, List.mem_append] at h
    rcases h with h | h
    · exact mem_byteToHex_hexOutChars h
    · exact ih h

theorem bytesToHex_ne_nil {bs : List Nat} (h : bs ≠ []) : bytesToHex bs ≠ [] := by
  cases bs with
  | nil => exact absurd rfl h
  | cons b bs => simp [bytesToHex, byteToHex]

theorem hexDecodeL_bytesToHex {bs : List Nat} (h : ∀ b ∈ bs, b < 256) :
    hexDecodeL (bytesToHex bs) = bs := by
  induction bs with
  | nil => rfl
  | cons b bs ih =>
    have hb : b < 256 := h b (by simp)
    have h2 : b / 16 < 16 := Nat.div_lt_of_lt_mul (by omega)
    have h1 : b / 16 % 16 = b / 16 := by omega
    have h3 : b % 16 < 16 := Nat.mod_lt _ (by omega)
    show hexDecodeL (hexDigitChar (b / 16 % 16) :: hexDigitChar (b % 16) :: bytesToHex bs)
        = b :: bs
    rw [h1]
    simp only [hexDecodeL, hexVal_hexDigitChar h2, hexVal_hexDigitChar h3]
    rw [ih (fun x hx => h x (by simp [hx]))]
    congr 1
    omega

theorem bytesToHex_injOn {bs1 bs2 : List Nat} (h1 : ∀ b ∈ bs1, b < 256)
    (h2 : ∀ b ∈ bs2, b < 256) (h : bytesToHex bs1 = bytesToHex bs2) : bs1 = bs2 := by
  have := hexDecodeL_bytesToHex h1
  rw [h, hexDecodeL_bytesToHex h2] at this
  exact this.symm

/-- Little-endian base-251 digits of a number, driven by explicit fuel
(the fuel n is always sufficient for the number n). -/
def natDigitsF : Nat → Nat → List Nat
  | 0, _ => []
  | _ + 1, 0 => []
  | f + 1, n + 1 => ((n + 1) % 251) :: natDigitsF f ((n + 1) / 251)

/-- Self-delimiting encoding of a natural number: base-251 digits followed
by the terminator byte 251. -/
def encNatL (n : Nat) : List Nat := natDigitsF n n ++ [251]

def unDigits : List Nat → Nat
  | [] => 0
  | d :: ds => d + 251 * unDigits ds

/-- Decode a self-delimiting number, returning the value and the rest. -/
def decodeNat : List Nat → Option (Nat × List Nat)
  | [] => none
  | b :: rest =>
    if b = 251 then some (0, rest)
    else if b < 251 then
      match decodeNat rest with
      | some (n, r) => some (b + 251 * n, r)
      | none => none
    else none

theorem natDigitsF_lt {f n d : Nat} (h : d ∈ natDigitsF f n) : d < 251 := by
  induction f generalizing n with
  | zero => cases h
  | succ f ih =>
    cases n with
    | zero => cases h
    | succ m =>
      simp only [natDigitsF, List.mem_cons] at h
      rcases h with h | h
      · have := Nat.mod_lt (m + 1) (by omega : 0 < 251)
        omega
      · exact ih h

theorem natDigitsF_lt251 {f n d : Nat} (h : d ∈ natDigitsF f n) : d < 251 := natDigitsF_lt h

theorem unDigits_natDigitsF {f n : Nat} (h : n ≤ f) : unDigits (natDigitsF f n) = n := by
  induction f generalizing n with
  | zero =>
    have : n = 0 := by omega
    simp [this, natDigitsF, unDigits]
  | succ f ih =>
    cases n with
    | zero => simp [natDigitsF, unDigits]
    | succ m =>
      have hdiv : (m + 1) / 251 ≤ f := by
        have := Nat.div_lt_self (Nat.succ_pos m) (by omega : 1 < 251)
        omega
      simp only [natDigitsF, unDigits, ih hdiv]
      omega

theorem decodeNat_digits {ds : List Nat} (rest : List Nat) (h : ∀ d ∈ ds, d < 251) :
    decodeNat (ds ++ 251 :: rest) = some (unDigits ds, rest) := by
  induction ds with
  | nil => simp [decodeNat, unDigits]
  | cons d ds ih =>
    have hd : d < 251 := h d (by simp)
    have ih2 := ih (fun x hx => h x (by simp [hx]))
    simp only [List.cons_append, decodeNat, if_neg (by omega : ¬ d = 251), if_pos hd]
    simp only [List.append_eq]
    rw [ih2]
    simp [unDigits]

theorem decodeNat_encNatL (n : Nat) (rest : List Nat) :
    decodeNat (encNatL n ++ rest) = some (n, rest) := by
  have := @decodeNat_digits (natDigitsF n n) rest (fun d hd => natDigitsF_lt hd)
  simpa [encNatL, unDigits_natDigitsF (Nat.le_refl n)] using this

theorem encNatL_head (n : Nat) : ∃ b t, encNatL n = b :: t ∧ b < 252 := by
  cases n with
  | zero => exact ⟨251, [], rfl, by omega⟩
  | succ m =>
    refine ⟨(m + 1) % 251, natDigitsF m ((m + 1) / 251) ++ [251],
      by simp [encNatL, natDigitsF], ?_⟩
    have := Nat.mod_lt (m + 1) (by omega : 0 < 251)
    omega

theorem encNatL_length_pos (n : Nat) : 0 < (encNatL n).length := by
  simp [encNatL]

theorem encNatL_mem_lt {n b : Nat} (h : b ∈ encNatL n) : b < 256 := by
  simp only [encNatL, List.mem_append, List.mem_singleton] at h
  rcases h with h | h
  · have := natDigitsF_lt h
    omega
  · omega

/-- Self-delimiting encoding of a character list: each character is its
code point encoded by encNatL; the list ends with the terminator 252. -/
def encChars : List Char → List Nat
  | [] => [252]
  | c :: cs => encNatL c.toNat ++ encChars cs

/-- Fuel-driven decoder for encChars. -/
def decodeChars : Nat → List Nat → Option (List Char × List Nat)
  | 0, _ => none
  | _ + 1, [] => none
  | f + 1, b :: rest =>
    if b = 252 then some ([], rest)
    else
      match decodeNat (b :: rest) with
      | none => none
      | some (n, r) =>
        match decodeChars f r with
        | none => none
        | some (cs, r2) => some (Char.ofNat n :: cs, r2)

theorem encChars_length_pos (cs : List Char) : 0 < (encChars cs).length := by
  cases cs with
  | nil => simp [encChars]
  | cons c cs => simp [encChars]; have := encNatL_length_pos c.toNat; omega

theorem encChars_head (cs : List Char) : ∃ b t, encChars cs = b :: t ∧ b ≤ 252 := by
  cases cs with
  | nil => exact ⟨252, [], rfl, by omega⟩
  | cons c cs =>
    obtain ⟨b, t, hb, hlt⟩ := encNatL_head c.toNat
    exact ⟨b, t ++ encChars cs, by simp [encChars, hb], by omega⟩

theorem encChars_mem_lt {cs : List Char} {b : Nat} (h : b ∈ encChars cs) : b < 256 := by
  induction cs with
  | nil => simp only [encChars, List.mem_singleton] at h; omega
  | cons c cs ih =>
    simp only [encChars, List.mem_append] at h
    rcases h with h | h
    · exact encNatL_mem_lt h
    · exact ih h

theorem decodeChars_encChars (cs : List Char) :
    ∀ (rest : List Nat) (f : Nat), (encChars cs).length < f →
      decodeChars f (encChars cs ++ rest) = some (cs, rest) := by
  induction cs with
  | nil =>
    intro rest f hf
    cases f with
    | zero => omega
    | succ f => simp [encChars, decodeChars]
  | cons c cs ih =>
    intro rest f hf
    obtain ⟨b, t, hb, hlt⟩ := encNatL_head c.toNat
    have hlen1 : 0 < (encNatL c.toNat).length := encNatL_length_pos _
    have hlen2 : 0 < (encChars cs).length := encChars_length_pos _
    have hftot : (encNatL c.toNat).length + (encChars cs).length < f := by
      simpa [encChars] using hf
    cases f with
    | zero => omega
    | succ f =>
      have hshape : encChars (c :: cs) ++ rest = b :: (t ++ (encChars cs ++ rest)) := by
        simp [encChars, hb]
      rw [hshape]
      have hdec : decodeNat (b :: (t ++ (encChars cs ++ rest)))
          = some (c.toNat, encChars cs ++ rest) := by
        have := decodeNat_encNatL c.toNat (encChars cs ++ rest)
        rw [hb] at this
        simpa using this
      simp only [decodeChars, if_neg (by omega : ¬ b = 252), hdec,
        ih rest f (by omega), Char.ofNat_toNat]

theorem encChars_inj {cs1 cs2 : List Char} (h : encChars cs1 = encChars cs2) : cs1 = cs2 := by
  have hlen : (encChars cs1).length = (encChars cs2).length := by rw [h]
  have h1 := decodeChars_encChars cs1 [] ((encChars cs2).length + 1) (by omega)
  have h2 := decodeChars_encChars cs2 [] ((encChars cs2).length + 1) (by omega)
  rw [h] at h1
  rw [h1] at h2
  simpa using h2

mutual

/-- Closed tagged-variant payload type of the Envelope Codec (spec section 9):
string, number, boolean, null, date, sequence, mapping, with sequences and
mappings nesting recursively.  Numbers are modelled as integers. -/
inductive JVal where
  | str : String → JVal
  | num : Int → JVal
  | bool : Bool → JVal
  | null : JVal
  | date : Nat → JVal
  | seq : JList → JVal
  | dict : JMap → JVal

/-- A sequence of payload values. -/
inductive JList where
  | nil : JList
  | cons : JVal → JList → JList

/-- A mapping from string keys to payload values. -/
inductive JMap where
  | nil : JMap
  | cons : String → JVal → JMap → JMap

end

mutual

/-- Modelled from the spec: MessageBuilder serialization of one value, a
type-tagged self-delimiting byte encoding (tag byte, then the payload). -/
def encJVal : JVal → List Nat
  | .str s => 0 :: encChars s.data
  | .num i => 1 :: (if i < 0 then 1 else 0) :: encNatL i.natAbs
  | .bool b => 2 :: (if b then 1 else 0) :: []
  | .null => [3]
  | .date n => 4 :: encNatL n
  | .seq l => 5 :: encJList l
  | .dict m => 6 :: encJMap m

/-- Elements of a sequence, then the terminator byte 253. -/
def encJList : JList → List Nat
  | .nil => [253]
  | .cons v vs => encJVal v ++ encJList vs

/-- Key/value entries of a mapping, then the terminator byte 254. -/
def encJMap : JMap → List Nat
  | .nil => [254]
  | .cons k v m => encChars k.data ++ (encJVal v ++ encJMap m)

end

mutual

/-- Fuel-driven decoder for encJVal, the inverse direction of the codec. -/
def decJVal : Nat → List Nat → Option (JVal × List Nat)
  | 0, _ => none
  | _ + 1, [] => none
  | f + 1, b :: l =>
    if b = 0 then
      match decodeChars f l with
      | some (cs, r) => some (.str (String.mk cs), r)
      | none => none
    else if b = 1 then
      match l with
      | [] => none
      | s :: l2 =>
        match decodeNat l2 with
        | some (n, r) => some (.num (if s = 1 then -(n : Int) else (n : Int)), r)
        | none => none
    else if b = 2 then
      match l with
      | [] => none
      | x :: l2 => some (.bool (x == 1), l2)
    else if b = 3 then some (.null, l)
    else if b = 4 then
      match decodeNat l with
      | some (n, r) => some (.date n, r)
      | none => none
    else if b = 5 then
      match decJList f l with
      | some (vs, r) => some (.seq vs, r)
      | none => none
    else if b = 6 then
      match decJMap f l with
      | some (m, r) => some (.dict m, r)
      | none => none
    else none

/-- Fuel-driven decoder for encJList. -/
def decJList : Nat → List Nat → Option (JList × List Nat)
  | 0, _ => none
  | _ + 1, [] => none
  | f + 1, b :: l =>
    if b = 253 then some (.nil, l)
    else
      match decJVal f (b :: l) with
      | none => none
      | some (v, r) =>
        match decJList f r with
        | none => none
        | some (vs, r2) => some (.cons v vs, r2)

/-- Fuel-driven decoder for encJMap. -/
def decJMap : Nat → List Nat → Option (JMap × List Nat)
  | 0, _ => none
  | _ + 1, [] => none
  | f + 1, b :: l =>
    if b = 254 then some (.nil, l)
    else
      match decodeChars f (b :: l) with
      | none => none
      | some (cs, r) =>
        match decJVal f r with
        | none => none
        | some (v, r2) =>
          match decJMap f r2 with
          | none => none
          | some (m, r3) => some (.cons (String.mk cs) v m, r3)

end

theorem encJVal_length_pos (v : JVal) : 0 < (encJVal v).length := by
  cases v <;> simp [encJVal]

theorem encJList_length_pos (l : JList) : 0 < (encJList l).length := by
  cases l with
  | nil => simp [encJList]
  | cons v vs =>
    simp only [encJList, List.length_append]
    have := encJVal_length_pos v
    omega

theorem encJMap_length_pos (m : JMap) : 0 < (encJMap m).length := by
  cases m with
  | nil => simp [encJMap]
  | cons k v m =>
    simp only [encJMap, List.length_append]
    have := encChars_length_pos k.data
    omega

theorem encJVal_head (v : JVal) : ∃ b t, encJVal v = b :: t ∧ b ≤ 6 := by
  cases v with
  | str s => exact ⟨0, encChars s.data, rfl, by omega⟩
  | num i => exact ⟨1, (if i < 0 then 1 else 0) :: encNatL i.natAbs, rfl, by omega⟩
  | bool b => exact ⟨2, [if b then 1 else 0], rfl, by omega⟩
  | null => exact ⟨3, [], rfl, by omega⟩
  | date n => exact ⟨4, encNatL n, rfl, by omega⟩
  | seq l => exact ⟨5, encJList l, rfl, by omega⟩
  | dict m => exact ⟨6, encJMap m, rfl, by omega⟩

mutual

theorem encJVal_mem_lt (v : JVal) : ∀ b ∈ encJVal v, b < 256 := by
  cases v with
  | str s =>
    intro b hb
    simp only [encJVal, List.mem_cons] at hb
    rcases hb with hb | hb
    · omega
    · exact encChars_mem_lt hb
  | num i =>
    intro b hb
    simp only [encJVal, List.mem_cons] at hb
    rcases hb with hb | hb | hb
    · omega
    · split at hb <;> omega
    · exact encNatL_mem_lt hb
  | bool c =>
    intro b hb
    simp only [encJVal, List.mem_cons, List.not_mem_nil, or_false] at hb
    rcases hb with hb | hb
    · omega
    · split at hb <;> omega
  | null =>
    intro b hb
    simp only [encJVal, List.mem_singleton] at hb
    omega
  | date n =>
    intro b hb
    simp only [encJVal, List.mem_cons] at hb
    rcases hb with hb | hb
    · omega
    · exact encNatL_mem_lt hb
  | seq l =>
    intro b hb
    simp only [encJVal, List.mem_cons] at hb
    rcases hb with hb | hb
    · omega
    · exact encJList_mem_lt l b hb
  | dict m =>
    intro b hb
    simp only [encJVal, List.mem_cons] at hb
    rcases hb with hb | hb
    · omega
    · exact encJMap_mem_lt m b hb

theorem encJList_mem_lt (l : JList) : ∀ b ∈ encJList l, b < 256 := by
  cases l with
  | nil =>
    intro b hb
    simp only [encJList, List.mem_singleton] at hb
    omega
  | cons v vs =>
    intro b hb
    simp only [encJList, List.mem_append] at hb
    rcases hb with hb | hb
    · exact encJVal_mem_lt v b hb
    · exact encJList_mem_lt vs b hb

theorem encJMap_mem_lt (m : JMap) : ∀ b ∈ encJMap m, b < 256 := by
  cases m with
  | nil =>
    intro b hb
    simp only [encJMap, List.mem_singleton] at hb
    omega
  | cons k v m =>
    intro b hb
    simp only [encJMap, List.mem_append] at hb
    rcases hb with hb | hb | hb
    · exact encChars_mem_lt hb
    · exact encJVal_mem_lt v b hb
    · exact encJMap_mem_lt m b hb

end

mutual

theorem decJVal_encJVal (v : JVal) :
    ∀ (rest : List Nat) (f : Nat), (encJVal v).length < f →
      decJVal f (encJVal v ++ rest) = some (v, rest) := by
  cases v with
  | str s =>
    intro rest f hf
    cases f with
    | zero => exact absurd hf (by omega)
    | succ f =>
      have hf2 : (encChars s.data).length < f := by
        simp only [encJVal, List.length_cons] at hf
        omega
      simp [encJVal, decJVal, decodeChars_encChars s.data rest f hf2]
  | num i =>
    intro rest f hf
    cases f with
    | zero => exact absurd hf (by omega)
    | succ f =>
      by_cases hi : i < 0
      · have hval : -(i.natAbs : Int) = i := by omega
        simp [encJVal, decJVal, decodeNat_encNatL, hi, hval, abs_of_neg hi]
      · have hval : (i.natAbs : Int) = i := by omega
        simp [encJVal, decJVal, decodeNat_encNatL, hi, hval]
  | bool c =>
    intro rest f hf
    cases f with
    | zero => exact absurd hf (by omega)
    | succ f =>
      cases c with
      | true => simp [encJVal, decJVal]
      | false => simp [encJVal, decJVal]
  | null =>
    intro rest f hf
    cases f with
    | zero => exact absurd hf (by omega)
    | succ f =>
      simp [encJVal, decJVal]
  | date n =>
    intro rest f hf
    cases f with
    | zero => exact absurd hf (by omega)
    | succ f =>
      simp [encJVal, decJVal, decodeNat_encNatL]
  | seq l =>
    intro rest f hf
    cases f with
    | zero => exact absurd hf (by omega)
    | succ f =>
      have hf2 : (encJList l).length < f := by
        simp only [encJVal, List.length_cons] at hf
        omega
      simp [encJVal, decJVal, decJList_encJList l rest f hf2]
  | dict m =>
    intro rest f hf
    cases f with
    | zero => exact absurd hf (by omega)
    | succ f =>
      have hf2 : (encJMap m).length < f := by
        simp only [encJVal, List.length_cons] at hf
        omega
      simp [encJVal, decJVal, decJMap_encJMap m rest f hf2]

theorem decJList_encJList (l : JList) :
    ∀ (rest : List Nat) (f : Nat), (encJList l).length < f →
      decJList f (encJList l ++ rest) = some (l, rest) := by
  cases l with
  | nil =>
    intro rest f hf
    cases f with
    | zero => exact absurd hf (by omega)
    | succ f => simp [encJList, decJList]
  | cons v vs =>
    intro rest f hf
    cases f with
    | zero => exact absurd hf (by omega)
    | succ f =>
      obtain ⟨b, t, hb, hle⟩ := encJVal_head v
      have hv_pos : 0 < (encJVal v).length := encJVal_length_pos v
      have hvs_pos : 0 < (encJList vs).length := encJList_length_pos vs
      have htot : (encJVal v).length + (encJList vs).length < f + 1 := by
        simpa [encJList] using hf
      have hshape : encJList (.cons v vs) ++ rest = b :: (t ++ (encJList vs ++ rest)) := by
        simp [encJList, hb]
      rw [hshape]
      have hv : decJVal f (b :: (t ++ (encJList vs ++ rest)))
          = some (v, encJList vs ++ rest) := by
        have := decJVal_encJVal v (encJList vs ++ rest) f (by omega)
        rw [hb] at this
        simpa using this
      simp only [decJList, if_neg (by omega : ¬ b = 253), hv]
      simp [decJList_encJList vs rest f (by omega)]

theorem decJMap_encJMap (m : JMap) :
    ∀ (rest : List Nat) (f : Nat), (encJMap m).length < f →
      decJMap f (encJMap m ++ rest) = some (m, rest) := by
  cases m with
  | nil =>
    intro rest f hf
    cases f with
    | zero => exact absurd hf (by omega)
    | succ f => simp [encJMap, decJMap]
  | cons k v m =>
    intro rest f hf
    cases f with
    | zero => exact absurd hf (by omega)
    | succ f =>
      obtain ⟨b, t, hb, hle⟩ := encChars_head k.data
      have hk_pos : 0 < (encChars k.data).length := encChars_length_pos k.data
      have hv_pos : 0 < (encJVal v).length := encJVal_length_pos v
      have hm_pos : 0 < (encJMap m).length := encJMap_length_pos m
      have htot : (encChars k.data).length + ((encJVal v).length + (encJMap m).length)
          < f + 1 := by
        simpa [encJMap] using hf
      have hshape : encJMap (.cons k v m) ++ rest
          = b :: (t ++ (encJVal v ++ (encJMap m ++ rest))) := by
        simp [encJMap, hb]
      rw [hshape]
      have hk : decodeChars f (b :: (t ++ (encJVal v ++ (encJMap m ++ rest))))
          = some (k.data, encJVal v ++ (encJMap m ++ rest)) := by
        have := decodeChars_encChars k.data (encJVal v ++ (encJMap m ++ rest)) f (by omega)
        rw [hb] at this
        simpa using this
      simp only [decJMap, if_neg (by omega : ¬ b = 254), hk]
      simp [decJVal_encJVal v (encJMap m ++ rest) f (by omega),
        decJMap_encJMap m rest f (by omega)]

end

/-- Fixed serialization header.  The real MessageBuilder wraps the payload in
a JSON object whose textual form is at least 16 bytes long; the model keeps
a fixed 14-byte header so that every serialized payload (header, expiry flag
and at least one value byte) is at least 16 bytes, matching that bound. -/
def mbHeader : List Nat := List.replicate 14 123

/-- Modelled from the spec: MessageBuilder.build serializes a value together
with an optional absolute expiry timestamp (the expiresIn duration is turned
into an absolute date at build time). -/
def mbBuild (payload : JVal) (expiresAt : Option Nat) : List Nat :=
  mbHeader ++
    (match expiresAt with
     | none => 0 :: encJVal payload
     | some t => 1 :: (encNatL t ++ encJVal payload))

/-- Modelled from the spec: MessageBuilder.verify parses serialized bytes
back to a typed value, rejecting (as none) structurally bad input and any
payload whose embedded expiry is at or before the current time. -/
def mbVerify (bytes : List Nat) (now : Nat) : Option JVal :=
  if bytes.take 14 = mbHeader then
    match bytes.drop 14 with
    | [] => none
    | b :: rest =>
      if b = 0 then
        match decJVal (rest.length + 1) rest with
        | some (v, []) => some v
        | _ => none
      else if b = 1 then
        match decodeNat rest with
        | some (t, rest2) =>
          if t ≤ now then none
          else
            match decJVal (rest2.length + 1) rest2 with
            | some (v, []) => some v
            | _ => none
        | none => none
      else none
  else none

theorem mbHeader_length : mbHeader.length = 14 := by simp [mbHeader]

theorem mbBuild_ne_nil (v : JVal) (e : Option Nat) : mbBuild v e ≠ [] := by
  cases e <;> simp [mbBuild, mbHeader]

theorem mbBuild_length_ge (v : JVal) (e : Option Nat) : 16 ≤ (mbBuild v e).length := by
  have hv := encJVal_length_pos v
  cases e with
  | none => simp only [mbBuild, List.length_append, mbHeader_length, List.length_cons]; omega
  | some t =>
    have ht := encNatL_length_pos t
    simp only [mbBuild, List.length_append, mbHeader_length, List.length_cons]
    omega

theorem mbBuild_mem_lt {v : JVal} {e : Option Nat} {b : Nat} (h : b ∈ mbBuild v e) :
    b < 256 := by
  cases e with
  | none =>
    simp only [mbBuild, mbHeader, List.mem_append, List.mem_replicate, List.mem_cons] at h
    rcases h with h | h | h
    · omega
    · omega
    · exact encJVal_mem_lt v b h
  | some t =>
    simp only [mbBuild, mbHeader, List.mem_append, List.mem_replicate, List.mem_cons,
      List.mem_append] at h
    rcases h with h | h | h | h
    · omega
    · omega
    · exact encNatL_mem_lt h
    · exact encJVal_mem_lt v b h

theorem mbVerify_mbBuild (v : JVal) (now : Nat) : mbVerify (mbBuild v none) now = some v := by
  have htake : (mbBuild v none).take 14 = mbHeader := by
    have := List.take_left mbHeader (0 :: encJVal v)
    rw [mbHeader_length] at this
    simpa [mbBuild] using this
  have hdrop : (mbBuild v none).drop 14 = 0 :: encJVal v := by
    have := List.drop_left mbHeader (0 :: encJVal v)
    rw [mbHeader_length] at this
    simpa [mbBuild] using this
  have hdec : decJVal ((encJVal v).length + 1) (encJVal v) = some (v, []) := by
    have := decJVal_encJVal v [] ((encJVal v).length + 1) (by omega)
    simpa using this
  simp [mbVerify, htake, hdrop, hdec]

/-- Deterministic mixing of a byte string into one number; the model's stand
in for a cryptographic digest over the bytes. -/
def fold (l : List Nat) : Nat := l.foldl (fun a b => a * 256 + b) 7

/-- Modelled from the spec: the KeyDeriver turns the application secret into
a fixed 32-byte key (hash-style mixing; deterministic, 32 bytes always). -/
def deriveKey (secret : List Nat) : List Nat :=
  (List.range 32).map (fun i => (fold secret + i * i + 1) % 256)

/-- One keystream byte of the ideal AES-256-GCM model at position n.  The
first 16 positions depend injectively on the corresponding IV byte,
reflecting that distinct IVs give distinct GCM keystream prefixes. -/
def ksByte (key iv : List Nat) (n : Nat) : Nat := (iv.getD n 0 + fold key + n) % 256

/-- Xor a byte string against the keystream, starting at position n; this is
both the encryption and decryption direction of the cipher core. -/
def xorKs (key iv : List Nat) : Nat → List Nat → List Nat
  | _, [] => []
  | n, b :: bs => (b ^^^ ksByte key iv n) :: xorKs key iv (n + 1) bs

theorem xorKs_length (key iv : List Nat) (n : Nat) (bs : List Nat) :
    (xorKs key iv n bs).length = bs.length := by
  induction bs generalizing n with
  | nil => rfl
  | cons b bs ih => simp [xorKs, ih]

theorem xorKs_xorKs (key iv : List Nat) (n : Nat) (bs : List Nat) :
    xorKs key iv n (xorKs key iv n bs) = bs := by
  induction bs generalizing n with
  | nil => rfl
  | cons b bs ih =>
    simp only [xorKs, ih]
    congr 1
    rw [Nat.xor_assoc, Nat.xor_self, Nat.xor_zero]

theorem ksByte_lt (key iv : List Nat) (n : Nat) : ksByte key iv n < 256 :=
  Nat.mod_lt _ (by omega)

theorem xorKs_mem_lt {key iv bs : List Nat} {n : Nat} (hbs : ∀ b ∈ bs, b < 256) :
    ∀ c ∈ xorKs key iv n bs, c < 256 := by
  induction bs generalizing n with
  | nil => intro c hc; cases hc
  | cons b bs ih =>
    intro c hc
    simp only [xorKs, List.mem_cons] at hc
    rcases hc with hc | hc
    · subst hc
      have h1 : b < 2 ^ 8 := hbs b (by simp)
      have h2 : ksByte key iv n < 2 ^ 8 := ksByte_lt key iv n
      exact Nat.xor_lt_two_pow h1 h2
    · exact ih (fun x hx => hbs x (by simp [hx])) c hc

theorem xorKs_ne_nil {key iv bs : List Nat} {n : Nat} (h : bs ≠ []) :
    xorKs key iv n bs ≠ [] := by
  cases bs with
  | nil => exact absurd rfl h
  | cons b bs => simp [xorKs]

theorem xorKs_getD {key iv : List Nat} (bs : List Nat) (k n : Nat) (h : n < bs.length) :
    (xorKs key iv k bs).getD n 0 = bs.getD n 0 ^^^ ksByte key iv (k + n) := by
  induction bs generalizing k n with
  | nil => simp at h
  | cons b bs ih =>
    cases n with
    | zero => simp [xorKs]
    | succ m =>
      have hm : m < bs.length := by simpa using h
      have := ih (k + 1) m hm
      simpa [xorKs, Nat.add_assoc, Nat.add_comm 1 m] using this

/-- Encoding of the optional AAD (the purpose) into the ideal tag; injective
so that different AADs always produce different tags. -/
def encodeAad : Option String → List Nat
  | none => [0]
  | some s => 1 :: encChars s.data

theorem encodeAad_inj {a1 a2 : Option String} (h : encodeAad a1 = encodeAad a2) :
    a1 = a2 := by
  cases a1 with
  | none =>
    cases a2 with
    | none => rfl
    | some s2 => simp [encodeAad] at h
  | some s1 =>
    cases a2 with
    | none => simp [encodeAad] at h
    | some s2 =>
      simp only [encodeAad, List.cons.injEq, true_and] at h
      have := encChars_inj h
      have hs : s1 = s2 := by
        cases s1
        cases s2
        exact congrArg String.mk (by simpa using this)
      rw [hs]

theorem encodeAad_mem_lt {a : Option String} {b : Nat} (h : b ∈ encodeAad a) : b < 256 := by
  cases a with
  | none => simp only [encodeAad, List.mem_singleton] at h; omega
  | some s =>
    simp only [encodeAad, List.mem_cons] at h
    rcases h with h | h
    · omega
    · exact encChars_mem_lt h

/-- Authentication tag of the ideal AES-256-GCM model: determined by the
AAD, the key, the IV and the ciphertext, and injective in the AAD. -/
def gcmTag (key iv : List Nat) (aad : Option String) (ct : List Nat) : List Nat :=
  encodeAad aad ++ (encNatL (fold key) ++ (encNatL (fold iv) ++ encNatL (fold ct)))

theorem gcmTag_ne_nil (key iv : List Nat) (aad : Option String) (ct : List Nat) :
    gcmTag key iv aad ct ≠ [] := by
  cases aad <;> simp [gcmTag, encodeAad]

theorem gcmTag_mem_lt {key iv : List Nat} {aad : Option String} {ct : List Nat} {b : Nat}
    (h : b ∈ gcmTag key iv aad ct) : b < 256 := by
  simp only [gcmTag, List.mem_append] at h
  rcases h with h | h | h | h
  · exact encodeAad_mem_lt h
  · exact encNatL_mem_lt h
  · exact encNatL_mem_lt h
  · exact encNatL_mem_lt h

theorem gcmTag_aad_inj {key iv ct : List Nat} {a1 a2 : Option String}
    (h : gcmTag key iv a1 ct = gcmTag key iv a2 ct) : a1 = a2 := by
  have := List.append_cancel_right h
  exact encodeAad_inj this

/-- Decryption direction of the ideal AES-256-GCM model: Node's decipher
throws on an empty IV, and final() throws unless the supplied auth tag
matches; both failures are modelled as none. -/
def gcmDecrypt (key iv : List Nat) (aad : Option String) (ct tag : List Nat) :
    Option (List Nat) :=
  if iv = [] then none
  else if tag = gcmTag key iv aad ct then some (xorKs key iv 0 ct) else none

/-- Modelled from the spec: the Hmac signer's digest bytes, a deterministic
keyed mix of the message. -/
def hmacBytes (key : List Nat) (msg : List Char) : List Nat :=
  (List.range 32).map (fun i => ((fold key + fold (msg.map Char.toNat)) % 256 + i) % 256)

/-- Modelled from the spec: Hmac.generate returns the hex text of the digest. -/
def hmacSign (key : List Nat) (msg : List Char) : List Char := bytesToHex (hmacBytes key msg)

/-- Modelled from the spec: Hmac.compare recomputes the digest and compares
in constant time, returning false (not an exception) on any mismatch. -/
def hmacVerify (key : List Nat) (msg candidate : List Char) : Bool :=
  if hmacSign key msg = candidate then true else false

theorem hmacSign_ne_nil (key : List Nat) (msg : List Char) : hmacSign key msg ≠ [] := by
  have : hmacBytes key msg ≠ [] := by simp [hmacBytes, List.range_succ]
  exact bytesToHex_ne_nil this

theorem mem_hmacSign_hexOutChars {key : List Nat} {msg : List Char} {c : Char}
    (h : c ∈ hmacSign key msg) : c ∈ hexOutChars := mem_bytesToHex_hexOutChars h

theorem hmacVerify_self (key : List Nat) (msg : List Char) :
    hmacVerify key msg (hmacSign key msg) = true := by
  simp [hmacVerify]

theorem hmacVerify_eq_false {key : List Nat} {msg candidate : List Char} :
    hmacVerify key msg candidate = false ↔ hmacSign key msg ≠ candidate := by
  by_cases h : hmacSign key msg = candidate <;> simp [hmacVerify, h]

/-- Driver configuration (spec section 3): the id is optional here so that a
missing id (a non-string value under typeof) is representable; the secret is
the application secret bytes; the separator is the one-character field
separator, '.' by default. -/
structure AES256GCMConfig where
  id : Option String
  secret : List Nat
  separator : Char

/-- Construction-time errors: the driver's own E_MISSING_ENCRYPTER_ID, and
the InvalidSecretError of the key derivation described by the spec. -/
inductive CtorError where
  | invalidSecret : CtorError
  | missingEncrypterId : CtorError

/-- A constructed driver instance: the configured id, the derived 32-byte
cryptoKey and the separator, as held by the BaseDriver. -/
structure Driver where
  id : String
  cryptoKey : List Nat
  separator : Char

/-- Modelled from the spec: the minimum safe secret length enforced by the
KeyDeriver (the spec requires failure on an empty or too-short secret but
does not fix the bound; the model uses 16 bytes). -/
def minSecretLength : Nat := 16

/-- The AES256GCM constructor: super(config) first derives the key (failing
on an invalid secret, per the spec); then the driver checks
typeof config.id !== 'string' and throws E_MISSING_ENCRYPTER_ID.  Note the
check accepts any string, including the empty string. -/
def mkDriver (config : AES256GCMConfig) : Except CtorError Driver :=
  if config.secret.length < minSecretLength then .error .invalidSecret
  else
    match config.id with
    | none => .error .missingEncrypterId
    | some i => .ok { id := i, cryptoKey := deriveKey config.secret, separator := config.separator }

/-- JavaScript truthiness of the optional purpose argument: the code guards
setAAD with `if (purpose)`, so an absent purpose and the empty string both
leave the AAD unset. -/
def aadOf : Option String → Option String
  | none => none
  | some s => if s = "" then none else some s

/-- AES256GCM.encrypt.  The random 16-byte IV drawn by randomBytes(16) is an
explicit argument; everything after that is the code's data flow: serialize
the payload, encrypt it with the optional purpose as AAD, hex the ciphertext
and IV, sign ciphertextHex + separator + ivHex, and join
id . 'aes256gcm' . result . authTagHex . hmac with the separator. -/
def encrypt (d : Driver) (payload : JVal) (expiresAt : Option Nat)
    (purpose : Option String) (iv : List Nat) : List Char :=
  let aad := aadOf purpose
  let encodedValue := mbBuild payload expiresAt
  let encrypted := xorKs d.cryptoKey iv 0 encodedValue
  let result := bytesToHex encrypted ++ d.separator :: bytesToHex iv
  let nounce := bytesToHex (gcmTag d.cryptoKey iv aad encrypted)
  let hmac := hmacSign d.cryptoKey result
  joinSep d.separator [d.id.data, "aes256gcm".data, result, nounce, hmac]

/-- The stage at which decrypt rejects its input.  The three hex stages
mirror the source's `if (!decoded) return null` checks after Buffer.from;
a Node Buffer is always truthy, so those stages are unreachable. -/
inductive Stage where
  | missingFields : Stage
  | badAlgo : Stage
  | badId : Stage
  | badHexCiphertext : Stage
  | badHexIv : Stage
  | badHexTag : Stage
  | badHmac : Stage
  | decipherFailed : Stage
  | badPayload : Stage

/-- Result of the staged decrypt: either a rejection at some stage or the
decoded value. -/
inductive DecResult where
  | rejected : Stage → DecResult
  | ok : JVal → DecResult

/-- Truthiness of a Node Buffer: Buffer.from never returns a falsy value
(even an empty buffer is truthy), so this is constantly false.  It models
the dead `if (!buffer)` checks in the source verbatim. -/
def bufferIsFalsy (_ : List Nat) : Bool := false

/-- The body of AES256GCM.decrypt after value.split(this.separator): the
destructuring takes the first six fields (missing ones become undefined,
which the falsiness check conflates with the empty string, as getD with an
empty default does here), then the algo, id, hex, HMAC and decipher steps
in the source's order. -/
def decryptParts (d : Driver) (parts : List (List Char)) (purpose : Option String)
    (now : Nat) : DecResult :=
  let id := parts.getD 0 []
  let algo := parts.getD 1 []
  let encryptedEncoded := parts.getD 2 []
  let ivEncoded := parts.getD 3 []
  let nounceEncoded := parts.getD 4 []
  let hash := parts.getD 5 []
  if id = [] ∨ algo = [] ∨ encryptedEncoded = [] ∨ ivEncoded = [] ∨ nounceEncoded = [] ∨
      hash = [] then
    .rejected .missingFields
  else if algo ≠ "aes256gcm".data then .rejected .badAlgo
  else if id ≠ d.id.data then .rejected .badId
  else
    let encrypted := hexDecodeL encryptedEncoded
    if bufferIsFalsy encrypted then .rejected .badHexCiphertext
    else
      let iv := hexDecodeL ivEncoded
      if bufferIsFalsy iv then .rejected .badHexIv
      else
        let nounce := hexDecodeL nounceEncoded
        if bufferIsFalsy nounce then .rejected .badHexTag
        else if hmacVerify d.cryptoKey (encryptedEncoded ++ d.separator :: ivEncoded) hash
            = false then
          .rejected .badHmac
        else
          match gcmDecrypt d.cryptoKey iv (aadOf purpose) encrypted nounce with
          | none => .rejected .decipherFailed
          | some plain =>
            match mbVerify plain now with
            | none => .rejected .badPayload
            | some v => .ok v

/-- AES256GCM.decrypt with its rejection stage exposed: split the input on
the separator and run the staged body.  The input is a string by type, so
the typeof guard needs no stage. -/
def decryptR (d : Driver) (value : List Char) (purpose : Option String)
    (now : Nat) : DecResult :=
  decryptParts d (splitSep d.separator value) purpose now

/-- AES256GCM.decrypt as the caller sees it: the decoded value, or null for
every rejection. -/
def decrypt (d : Driver) (value : List Char) (purpose : Option String)
    (now : Nat) : Option JVal :=
  match decryptR d value purpose now with
  | .ok v => some v
  | .rejected _ => none

/-- Well-formedness of a driver instance as configured in practice: the id
is a non-empty string and the separator (by default '.') occurs neither in
the id nor in the hex alphabet nor in the algorithm tag, so that no envelope
field can contain it (spec section 6). -/
def GoodDriver (d : Driver) : Prop :=
  d.id ≠ "" ∧ d.separator ∉ d.id.data ∧ d.separator ∉ hexOutChars ∧
    d.separator ∉ "aes256gcm".data

/-- Well-formedness of an IV as drawn by randomBytes(16): sixteen bytes. -/
def GoodIV (iv : List Nat) : Prop := iv.length = 16 ∧ ∀ b ∈ iv, b < 256

instance (d : Driver) : Decidable (GoodDriver d) := by
  unfold GoodDriver
  infer_instance

instance (iv : List Nat) : Decidable (GoodIV iv) := by
  unfold GoodIV
  infer_instance

theorem splitSep_encrypt (d : Driver) (hd : GoodDriver d) (v : JVal) (e : Option Nat)
    (p : Option String) (iv : List Nat) :
    splitSep d.separator (encrypt d v e p iv) =
      [d.id.data, "aes256gcm".data,
       bytesToHex (xorKs d.cryptoKey iv 0 (mbBuild v e)),
       bytesToHex iv,
       bytesToHex (gcmTag d.cryptoKey iv (aadOf p) (xorKs d.cryptoKey iv 0 (mbBuild v e))),
       hmacSign d.cryptoKey
         (bytesToHex (xorKs d.cryptoKey iv 0 (mbBuild v e)) ++
           d.separator :: bytesToHex iv)] := by
  obtain ⟨hidne, hsepid, hsephex, hsepalgo⟩ := hd
  have hjoin : encrypt d v e p iv =
      d.id.data ++ d.separator ::
        ("aes256gcm".data ++ d.separator ::
          (bytesToHex (xorKs d.cryptoKey iv 0 (mbBuild v e)) ++ d.separator ::
            (bytesToHex iv ++ d.separator ::
              (bytesToHex (gcmTag d.cryptoKey iv (aadOf p)
                  (xorKs d.cryptoKey iv 0 (mbBuild v e))) ++ d.separator ::
                hmacSign d.cryptoKey
                  (bytesToHex (xorKs d.cryptoKey iv 0 (mbBuild v e)) ++
                    d.separator :: bytesToHex iv))))) := by
    simp [encrypt, joinSep]
  have hct : d.separator ∉ bytesToHex (xorKs d.cryptoKey iv 0 (mbBuild v e)) :=
    fun hm => hsephex (mem_bytesToHex_hexOutChars hm)
  have hiv : d.separator ∉ bytesToHex iv :=
    fun hm => hsephex (mem_bytesToHex_hexOutChars hm)
  have htag : d.separator ∉ bytesToHex (gcmTag d.cryptoKey iv (aadOf p)
      (xorKs d.cryptoKey iv 0 (mbBuild v e))) :=
    fun hm => hsephex (mem_bytesToHex_hexOutChars hm)
  have hhmac : d.separator ∉ hmacSign d.cryptoKey
      (bytesToHex (xorKs d.cryptoKey iv 0 (mbBuild v e)) ++
        d.separator :: bytesToHex iv) :=
    fun hm => hsephex (mem_hmacSign_hexOutChars hm)
  rw [hjoin, splitSep_append, splitSep_append, splitSep_append, splitSep_append,
    splitSep_append, splitSep_eq_single _ _ hsepid, splitSep_eq_single _ _ hsepalgo,
    splitSep_eq_single _ _ hct, splitSep_eq_single _ _ hiv, splitSep_eq_single _ _ htag,
    splitSep_eq_single _ _ hhmac]
  simp

theorem decryptR_encrypt (d : Driver) (hd : GoodDriver d) (v : JVal) (e : Option Nat)
    (p1 p2 : Option String) (iv : List Nat) (hiv : GoodIV iv) (now : Nat) :
    decryptR d (encrypt d v e p1 iv) p2 now =
      if aadOf p1 = aadOf p2 then
        match mbVerify (mbBuild v e) now with
        | none => .rejected .badPayload
        | some v2 => .ok v2
      else .rejected .decipherFailed := by
  obtain ⟨hidne, hsepid, hsephex, hsepalgo⟩ := hd
  obtain ⟨hivlen, hivlt⟩ := hiv
  have hivne : iv ≠ [] := by
    intro h
    rw [h] at hivlen
    simp at hivlen
  have hctlt : ∀ b ∈ xorKs d.cryptoKey iv 0 (mbBuild v e), b < 256 :=
    xorKs_mem_lt (fun b hb => mbBuild_mem_lt hb)
  have hdec_ct : hexDecodeL (bytesToHex (xorKs d.cryptoKey iv 0 (mbBuild v e)))
      = xorKs d.cryptoKey iv 0 (mbBuild v e) := hexDecodeL_bytesToHex hctlt
  have hdec_iv : hexDecodeL (bytesToHex iv) = iv := hexDecodeL_bytesToHex hivlt
  have hdec_tag : hexDecodeL (bytesToHex (gcmTag d.cryptoKey iv (aadOf p1)
        (xorKs d.cryptoKey iv 0 (mbBuild v e))))
      = gcmTag d.cryptoKey iv (aadOf p1) (xorKs d.cryptoKey iv 0 (mbBuild v e)) :=
    hexDecodeL_bytesToHex (fun b hb => gcmTag_mem_lt hb)
  have hidne2 : d.id.data ≠ [] := fun h => hidne (String.ext h)
  have hct_ne : bytesToHex (xorKs d.cryptoKey iv 0 (mbBuild v e)) ≠ [] :=
    bytesToHex_ne_nil (xorKs_ne_nil (mbBuild_ne_nil v e))
  have hiv_ne : bytesToHex iv ≠ [] := bytesToHex_ne_nil hivne
  have htag_ne : bytesToHex (gcmTag d.cryptoKey iv (aadOf p1)
      (xorKs d.cryptoKey iv 0 (mbBuild v e))) ≠ [] :=
    bytesToHex_ne_nil (gcmTag_ne_nil _ _ _ _)
  have hhmac_ne : hmacSign d.cryptoKey
      (bytesToHex (xorKs d.cryptoKey iv 0 (mbBuild v e)) ++
        d.separator :: bytesToHex iv) ≠ [] := hmacSign_ne_nil _ _
  have halgo_ne : ("aes256gcm".data : List Char) ≠ [] := by decide
  rw [decryptR, splitSep_encrypt d ⟨hidne, hsepid, hsephex, hsepalgo⟩ v e p1 iv]
  set F3 := bytesToHex (xorKs d.cryptoKey iv 0 (mbBuild v e)) with hF3
  set F4 := bytesToHex iv with hF4
  set F5 := bytesToHex (gcmTag d.cryptoKey iv (aadOf p1)
    (xorKs d.cryptoKey iv 0 (mbBuild v e))) with hF5
  set F6 := hmacSign d.cryptoKey (F3 ++ d.separator :: F4) with hF6
  set F1 := d.id.data with hF1
  set F2 := ("aes256gcm".data : List Char) with hF2
  simp only [decryptParts]
  rw [show ([F1, F2, F3, F4, F5, F6] : List (List Char)).getD 0 [] = F1 from rfl,
    show ([F1, F2, F3, F4, F5, F6] : List (List Char)).getD 1 [] = F2 from rfl,
    show ([F1, F2, F3, F4, F5, F6] : List (List Char)).getD 2 [] = F3 from rfl,
    show ([F1, F2, F3, F4, F5, F6] : List (List Char)).getD 3 [] = F4 from rfl,
    show ([F1, F2, F3, F4, F5, F6] : List (List Char)).getD 4 [] = F5 from rfl,
    show ([F1, F2, F3, F4, F5, F6] : List (List Char)).getD 5 [] = F6 from rfl]
  rw [if_neg (by simp [hidne2, halgo_ne, hct_ne, hiv_ne, htag_ne, hhmac_ne])]
  rw [if_neg (by simp [hF2])]
  rw [if_neg (by simp [hF1])]
  simp only [bufferIsFalsy, Bool.false_eq_true, if_false]
  rw [if_neg (by simp [hF6, hmacVerify_self])]
  rw [hdec_ct, hdec_iv, hdec_tag]
  simp only [gcmDecrypt, if_neg hivne]
  by_cases hp : aadOf p1 = aadOf p2
  · rw [if_pos hp]
    rw [if_pos (by rw [hp])]
    rw [xorKs_xorKs]
  · rw [if_neg hp]
    rw [if_neg (fun heq => hp (gcmTag_aad_inj heq))]

theorem decrypt_encrypt_roundtrip (d : Driver) (hd : GoodDriver d) (v : JVal)
    (p1 p2 : Option String) (hp : aadOf p1 = aadOf p2) (iv : List Nat) (hiv : GoodIV iv)
    (now : Nat) :
    decrypt d (encrypt d v none p1 iv) p2 now = some v := by
  rw [decrypt, decryptR_encrypt d hd v none p1 p2 iv hiv now, if_pos hp,
    mbVerify_mbBuild v now]

theorem decrypt_encrypt_mismatch (d : Driver) (hd : GoodDriver d) (v : JVal)
    (e : Option Nat) (p1 p2 : Option String) (hp : aadOf p1 ≠ aadOf p2) (iv : List Nat)
    (hiv : GoodIV iv) (now : Nat) :
    decrypt d (encrypt d v e p1 iv) p2 now = none := by
  rw [decrypt, decryptR_encrypt d hd v e p1 p2 iv hiv now, if_neg hp]

theorem decryptParts_congr (d : Driver) (ps1 ps2 : List (List Char)) (p : Option String)
    (now : Nat) (h : ∀ i, i < 6 → ps1.getD i [] = ps2.getD i []) :
    decryptParts d ps1 p now = decryptParts d ps2 p now := by
  simp only [decryptParts]
  rw [h 0 (by omega), h 1 (by omega), h 2 (by omega), h 3 (by omega), h 4 (by omega),
    h 5 (by omega)]

theorem decrypt_of_short_split (d : Driver) (value : List Char) (p : Option String)
    (now : Nat) (h : (splitSep d.separator value).length < 6) :
    decrypt d value p now = none := by
  have h5 : (splitSep d.separator value).getD 5 [] = [] :=
    List.getD_eq_default _ _ (by omega)
  simp only [decrypt, decryptR, decryptParts]
  rw [if_pos (Or.inr (Or.inr (Or.inr (Or.inr (Or.inr h5)))))]

theorem decrypt_of_bad_algo (d : Driver) (value : List Char) (p : Option String)
    (now : Nat) (h : (splitSep d.separator value).getD 1 [] ≠ "aes256gcm".data) :
    decrypt d value p now = none := by
  simp only [decrypt, decryptR, decryptParts]
  by_cases h6 : (splitSep d.separator value).getD 0 [] = [] ∨
      (splitSep d.separator value).getD 1 [] = [] ∨
      (splitSep d.separator value).getD 2 [] = [] ∨
      (splitSep d.separator value).getD 3 [] = [] ∨
      (splitSep d.separator value).getD 4 [] = [] ∨
      (splitSep d.separator value).getD 5 [] = []
  · rw [if_pos h6]
  · rw [if_neg h6, if_pos h]

theorem decrypt_ne_none_length (d : Driver) (value : List Char) (p : Option String)
    (now : Nat) (h : decrypt d value p now ≠ none) :
    6 ≤ (splitSep d.separator value).length := by
  by_contra hlt
  exact h (decrypt_of_short_split d value p now (by omega))

theorem decrypt_append_extra (d : Driver) (value extra : List Char) (p : Option String)
    (now : Nat) (h : decrypt d value p now ≠ none) :
    decrypt d (value ++ d.separator :: extra) p now = decrypt d value p now := by
  have hlen := decrypt_ne_none_length d value p now h
  have hcong : decryptParts d
        (splitSep d.separator value ++ splitSep d.separator extra) p now
      = decryptParts d (splitSep d.separator value) p now := by
    apply decryptParts_congr
    intro i hi
    exact List.getD_append _ _ _ _ (by omega)
  simp only [decrypt, decryptR, splitSep_append, hcong]

theorem decryptR_hex_stage_unreachable (d : Driver) (value : List Char)
    (p : Option String) (now : Nat) :
    decryptR d value p now ≠ .rejected .badHexCiphertext ∧
      decryptR d value p now ≠ .rejected .badHexIv ∧
      decryptR d value p now ≠ .rejected .badHexTag := by
  simp only [decryptR, decryptParts, bufferIsFalsy, Bool.false_eq_true, if_false]
  refine ⟨?_, ?_, ?_⟩ <;>
    · intro h
      repeat' split at h
      all_goals simp_all

/-- True exactly when the staged decrypt got as far as running the decipher:
it failed there, or it decrypted and went on to payload parsing. -/
def reachedDecipher : DecResult → Bool
  | .rejected .decipherFailed => true
  | .rejected .badPayload => true
  | .ok _ => true
  | _ => false

theorem hmac_gate (d : Driver) (value : List Char) (p : Option String) (now : Nat)
    (hfail : hmacVerify d.cryptoKey
        ((splitSep d.separator value).getD 2 [] ++
          d.separator :: (splitSep d.separator value).getD 3 [])
        ((splitSep d.separator value).getD 5 []) = false) :
    decrypt d value p now = none ∧
      reachedDecipher (decryptR d value p now) = false := by
  simp only [decrypt, decryptR, decryptParts, bufferIsFalsy, Bool.false_eq_true, if_false]
  rw [if_pos hfail]
  constructor
  · repeat' split
    all_goals try rfl
    all_goals
      exfalso
      rename_i heq
      repeat' split at heq
      all_goals simp_all
  · repeat' split
    all_goals rfl

theorem exists_differing_byte {l1 l2 : List Nat} (hlen : l1.length = l2.length)
    (hne : l1 ≠ l2) : ∃ n, n < l1.length ∧ l1.getD n 0 ≠ l2.getD n 0 := by
  induction l1 generalizing l2 with
  | nil =>
    cases l2 with
    | nil => exact absurd rfl hne
    | cons b l2 => simp at hlen
  | cons a l1 ih =>
    cases l2 with
    | nil => simp at hlen
    | cons b l2 =>
      by_cases hab : a = b
      · subst hab
        have hne2 : l1 ≠ l2 := fun hh => hne (by rw [hh])
        obtain ⟨n, hn, hd⟩ := ih (by simpa using hlen) hne2
        exact ⟨n + 1, by simp; omega, by simpa using hd⟩
      · exact ⟨0, by simp, by simpa using hab⟩

theorem getD_lt_of_all {l : List Nat} (hall : ∀ b ∈ l, b < 256) (n : Nat)
    (h : n < l.length) : l.getD n 0 < 256 := by
  induction l generalizing n with
  | nil => simp at h
  | cons a l ih =>
    cases n with
    | zero => exact hall a (by simp)
    | succ m => exact ih (fun b hb => hall b (by simp [hb])) m (by simpa using h)

theorem ksByte_inj_at {key iv1 iv2 : List Nat} {n : Nat} (h1 : iv1.getD n 0 < 256)
    (h2 : iv2.getD n 0 < 256) (hne : iv1.getD n 0 ≠ iv2.getD n 0) :
    ksByte key iv1 n ≠ ksByte key iv2 n := by
  intro heq
  apply hne
  have hmod : iv1.getD n 0 + (fold key + n) ≡ iv2.getD n 0 + (fold key + n) [MOD 256] := by
    have : iv1.getD n 0 + fold key + n = iv1.getD n 0 + (fold key + n) := by omega
    have h2a : iv2.getD n 0 + fold key + n = iv2.getD n 0 + (fold key + n) := by omega
    unfold ksByte at heq
    unfold Nat.ModEq
    omega
  have := Nat.ModEq.add_right_cancel' (fold key + n) hmod
  unfold Nat.ModEq at this
  rw [Nat.mod_eq_of_lt h1, Nat.mod_eq_of_lt h2] at this
  exact this

theorem xorKs_ne_of_iv_ne (key : List Nat) {iv1 iv2 : List Nat} (h1 : GoodIV iv1)
    (h2 : GoodIV iv2) (hne : iv1 ≠ iv2) (pt : List Nat) (hpt : 16 ≤ pt.length) :
    xorKs key iv1 0 pt ≠ xorKs key iv2 0 pt := by
  obtain ⟨hl1, hb1⟩ := h1
  obtain ⟨hl2, hb2⟩ := h2
  obtain ⟨n, hn, hd⟩ := exists_differing_byte (hl1.trans hl2.symm) hne
  rw [hl1] at hn
  intro heq
  have e1 := @xorKs_getD key iv1 pt 0 n (by omega)
  have e2 := @xorKs_getD key iv2 pt 0 n (by omega)
  rw [heq] at e1
  have hks : ksByte key iv1 (0 + n) = ksByte key iv2 (0 + n) := by
    have hxor := e1.symm.trans e2
    calc ksByte key iv1 (0 + n)
        = pt.getD n 0 ^^^ (pt.getD n 0 ^^^ ksByte key iv1 (0 + n)) := by
          rw [← Nat.xor_assoc, Nat.xor_self, Nat.zero_xor]
      _ = pt.getD n 0 ^^^ (pt.getD n 0 ^^^ ksByte key iv2 (0 + n)) := by rw [hxor]
      _ = ksByte key iv2 (0 + n) := by
          rw [← Nat.xor_assoc, Nat.xor_self, Nat.zero_xor]
  have hb1n : iv1.getD n 0 < 256 := getD_lt_of_all hb1 n (by omega)
  have hb2n : iv2.getD n 0 < 256 := getD_lt_of_all hb2 n (by omega)
  rw [Nat.zero_add] at hks
  exact ksByte_inj_at hb1n hb2n hd hks

/-- A concrete 16-byte application secret for concrete instances. -/
def secret0 : List Nat := List.replicate 16 7

/-- A concrete, well-configured driver instance (id "app1", separator '.'). -/
def drv : Driver := { id := "app1", cryptoKey := deriveKey secret0, separator := '.' }

/-- A concrete 16-byte IV. -/
def iv0 : List Nat := List.range 16

/-- A second, different concrete 16-byte IV. -/
def iv1 : List Nat := (List.range 16).map (fun n => n + 1)

/-- A concrete payload exercising every variant, with nesting. -/
def v0 : JVal :=
  .seq (.cons (.str "hi") (.cons (.num (-3)) (.cons (.bool true) (.cons .null
    (.cons (.date 5) (.cons (.dict (.cons "k" (.str "v") .nil)) .nil))))))

/-- A six-field envelope whose ciphertext, IV and auth-tag fields are not
valid hex, but whose HMAC is valid for the literal field text, so only the
decipher step can reject it. -/
def badEnv : List Char :=
  "app1.aes256gcm.zz.yy.ww.".data ++ hmacSign (deriveKey secret0) ("zz.yy".data)

/-- A configuration whose id is present but is the empty string. -/
def cfgEmptyId : AES256GCMConfig := { id := some "", secret := secret0, separator := '.' }

/-- C1: for every representable value v (string, number, boolean, null, date,
or nested sequence/mapping), with no expiry and no purpose supplied,
decrypting the output of encrypt on the same (well-configured) driver
instance returns the value: decrypt (encrypt v) = some v. -/
theorem c1_round_trip (d : Driver) (hd : GoodDriver d) (v : JVal) (iv : List Nat)
    (hiv : GoodIV iv) (now : Nat) :
    decrypt d (encrypt d v none none iv) none now = some v :=
  decrypt_encrypt_roundtrip d hd v none none rfl iv hiv now

/-- C1 witness: the round trip evaluated on a concrete driver, IV and a
nested concrete payload. -/
theorem c1_round_trip_witness :
    GoodDriver drv ∧ GoodIV iv0 ∧
      decrypt drv (encrypt drv v0 none none iv0) none 0 = some v0 :=
  ⟨by decide, by decide, c1_round_trip drv (by decide) v0 iv0 (by decide) 0⟩

/-- C2 counterexample: the claim also demands null for every purpose a with
no purpose supplied at decrypt, but with a = "" the guard `if (purpose)` is
falsy, no AAD is set, and decrypt with no purpose returns the value, not
null. -/
theorem c2_counterexample :
    decrypt drv (encrypt drv JVal.null none (some "") iv0) none 0 = some JVal.null :=
  decrypt_encrypt_roundtrip drv (by decide) JVal.null (some "") none rfl iv0 (by decide) 0

/-- C2 (amended): for purposes a and b with a ≠ b, cross-purpose decrypt
returns null; and for every non-empty purpose a, decrypt with no purpose
supplied returns null (for a = "" the envelope is identical to the
no-purpose envelope, so that case round-trips instead). -/
theorem c2_purpose_binding (d : Driver) (hd : GoodDriver d) (v : JVal) (iv : List Nat)
    (hiv : GoodIV iv) (now : Nat) (a b : String) (hab : a ≠ b) :
    decrypt d (encrypt d v none (some a) iv) (some b) now = none ∧
      (a ≠ "" → decrypt d (encrypt d v none (some a) iv) none now = none) := by
  constructor
  · apply decrypt_encrypt_mismatch d hd v none (some a) (some b) _ iv hiv now
    intro heq
    by_cases ha : a = ""
    · by_cases hb : b = ""
      · exact hab (ha.trans hb.symm)
      · simp [aadOf, ha, hb] at heq
    · by_cases hb : b = ""
      · simp [aadOf, ha, hb] at heq
      · simp only [aadOf, if_neg ha, if_neg hb, Option.some.injEq] at heq
        exact hab heq
  · intro ha
    apply decrypt_encrypt_mismatch d hd v none (some a) none _ iv hiv now
    intro heq
    simp [aadOf, ha] at heq

/-- C2 witness: purpose binding evaluated at concrete purposes "x" and "y". -/
theorem c2_purpose_binding_witness :
    decrypt drv (encrypt drv JVal.null none (some "x") iv0) (some "y") 0 = none ∧
      ("x" ≠ "" → decrypt drv (encrypt drv JVal.null none (some "x") iv0) none 0 = none) :=
  c2_purpose_binding drv (by decide) JVal.null iv0 (by decide) 0 "x" "y" (by decide)

/-- C3: decrypt is a total function returning an Option (it never throws by
construction), and it returns null for the empty string, for a concrete
garbage string, for every input with fewer than six separator-delimited
fields, and for every input whose algorithm field is not "aes256gcm". -/
theorem c3_malformed_null (d : Driver) (p : Option String) (now : Nat) :
    decrypt d [] p now = none ∧
      decrypt drv "hello world".data none 0 = none ∧
      (∀ value : List Char, (splitSep d.separator value).length < 6 →
        decrypt d value p now = none) ∧
      (∀ value : List Char, (splitSep d.separator value).getD 1 [] ≠ "aes256gcm".data →
        decrypt d value p now = none) := by
  refine ⟨?_, ?_, ?_, ?_⟩
  · exact decrypt_of_short_split d [] p now (by simp [splitSep])
  · exact decrypt_of_bad_algo drv "hello world".data none 0 (by decide)
  · intro value h
    exact decrypt_of_short_split d value p now h
  · intro value h
    exact decrypt_of_bad_algo d value p now h

/-- C3 witness: malformed-input rejection evaluated on concrete inputs,
including a six-field envelope with a wrong algorithm tag. -/
theorem c3_malformed_null_witness :
    decrypt drv [] none 0 = none ∧
      decrypt drv "app1.rot13.aa.bb.cc.dd".data none 0 = none := by
  obtain ⟨h1, h2, h3, h4⟩ := c3_malformed_null drv none 0
  exact ⟨h1, h4 "app1.rot13.aa.bb.cc.dd".data (by decide)⟩

/-- C4: the claim says an invalid hex field is rejected before the HMAC
check; in the code, Buffer.from(s, 'hex') never yields a falsy value, so the
three rejection checks are dead: a concrete envelope whose hex fields are
invalid passes the hex stage and the HMAC stage and is rejected only at the
decipher stage, and no input whatsoever is rejected at a hex stage. -/
theorem c4_dead_hex_check :
    decryptR drv badEnv none 0 = .rejected .decipherFailed ∧
      ∀ (d : Driver) (value : List Char) (p : Option String) (now : Nat),
        decryptR d value p now ≠ .rejected .badHexCiphertext ∧
          decryptR d value p now ≠ .rejected .badHexIv ∧
          decryptR d value p now ≠ .rejected .badHexTag :=
  ⟨rfl, fun d value p now => decryptR_hex_stage_unreachable d value p now⟩

/-- C5 counterexample: the claim says construction fails whenever the id is
not a non-empty string, but a present empty-string id passes the
typeof check and is accepted. -/
theorem c5_counterexample :
    mkDriver cfgEmptyId
      = .ok { id := "", cryptoKey := deriveKey secret0, separator := '.' } := rfl

/-- C5 (amended): with a valid secret, construction fails with the
missing-id error exactly when the id is absent (not a string); any string
id, the empty string included, is accepted. -/
theorem c5_ctor (cfg : AES256GCMConfig) (hs : minSecretLength ≤ cfg.secret.length) :
    (cfg.id = none → mkDriver cfg = .error .missingEncrypterId) ∧
      (∀ s, cfg.id = some s →
        mkDriver cfg = .ok (Driver.mk s (deriveKey cfg.secret) cfg.separator)) := by
  constructor
  · intro h
    simp [mkDriver, if_neg (by omega : ¬ cfg.secret.length < minSecretLength), h]
  · intro s h
    simp [mkDriver, if_neg (by omega : ¬ cfg.secret.length < minSecretLength), h]

/-- C5 witness: the constructor evaluated on a concrete missing id and a
concrete empty-string id. -/
theorem c5_ctor_witness :
    mkDriver { id := none, secret := secret0, separator := '.' }
        = .error .missingEncrypterId ∧
      mkDriver cfgEmptyId
        = .ok { id := "", cryptoKey := deriveKey secret0, separator := '.' } := by
  have h1 := c5_ctor { id := none, secret := secret0, separator := '.' } (by decide)
  have h2 := c5_ctor cfgEmptyId (by decide)
  exact ⟨h1.1 rfl, h2.2 "" rfl⟩

/-- C6: whenever the HMAC recomputed over ciphertextHex + separator + ivHex
does not verify against the envelope's mac field, decrypt returns null and
the staged decrypt never reaches the decipher step. -/
theorem c6_hmac_before_decipher (d : Driver) (value : List Char) (p : Option String)
    (now : Nat)
    (hfail : hmacVerify d.cryptoKey
        ((splitSep d.separator value).getD 2 [] ++
          d.separator :: (splitSep d.separator value).getD 3 [])
        ((splitSep d.separator value).getD 5 []) = false) :
    decrypt d value p now = none ∧
      reachedDecipher (decryptR d value p now) = false :=
  hmac_gate d value p now hfail

/-- C6 witness: a concrete well-formed envelope whose mac field is wrong. -/
theorem c6_hmac_before_decipher_witness :
    hmacVerify drv.cryptoKey
        ((splitSep drv.separator "app1.aes256gcm.aa.bb.cc.dd".data).getD 2 [] ++
          drv.separator :: (splitSep drv.separator "app1.aes256gcm.aa.bb.cc.dd".data).getD 3 [])
        ((splitSep drv.separator "app1.aes256gcm.aa.bb.cc.dd".data).getD 5 []) = false ∧
      decrypt drv "app1.aes256gcm.aa.bb.cc.dd".data none 0 = none ∧
      reachedDecipher (decryptR drv "app1.aes256gcm.aa.bb.cc.dd".data none 0) = false := by
  have hfail : hmacVerify drv.cryptoKey
      ((splitSep drv.separator "app1.aes256gcm.aa.bb.cc.dd".data).getD 2 [] ++
        drv.separator :: (splitSep drv.separator "app1.aes256gcm.aa.bb.cc.dd".data).getD 3 [])
      ((splitSep drv.separator "app1.aes256gcm.aa.bb.cc.dd".data).getD 5 []) = false := by
    decide
  obtain ⟨h1, h2⟩ := c6_hmac_before_decipher drv "app1.aes256gcm.aa.bb.cc.dd".data none 0 hfail
  exact ⟨hfail, h1, h2⟩

/-- C7 counterexample: the six-field string is not the sole input shape
decrypt accepts: appending a seventh separator-delimited field to a valid
envelope still decrypts to the original value. -/
theorem c7_counterexample :
    decrypt drv (encrypt drv JVal.null none none iv0 ++ drv.separator :: "x".data) none 0
      = some JVal.null := by
  have h := decrypt_encrypt_roundtrip drv (by decide) JVal.null none none rfl iv0 (by decide) 0
  rw [decrypt_append_extra drv _ _ none 0 (by rw [h]; exact Option.some_ne_none _), h]

/-- C7 (amended): every successful encrypt output splits on the separator
into exactly six non-empty fields in order (configured id, literal
"aes256gcm", hex ciphertext, hex IV, hex auth tag, HMAC); decrypt accepts
this shape, but it is not the sole accepted shape, since extra trailing
separator-delimited fields are ignored. -/
theorem c7_envelope_fields (d : Driver) (hd : GoodDriver d) (v : JVal) (e : Option Nat)
    (p : Option String) (iv : List Nat) (hiv : GoodIV iv) :
    splitSep d.separator (encrypt d v e p iv) =
      [d.id.data, "aes256gcm".data,
       bytesToHex (xorKs d.cryptoKey iv 0 (mbBuild v e)),
       bytesToHex iv,
       bytesToHex (gcmTag d.cryptoKey iv (aadOf p) (xorKs d.cryptoKey iv 0 (mbBuild v e))),
       hmacSign d.cryptoKey
         (bytesToHex (xorKs d.cryptoKey iv 0 (mbBuild v e)) ++
           d.separator :: bytesToHex iv)] ∧
      ∀ fld ∈ splitSep d.separator (encrypt d v e p iv), fld ≠ [] := by
  obtain ⟨hidne, hsepid, hsephex, hsepalgo⟩ := hd
  obtain ⟨hivlen, hivlt⟩ := hiv
  have hivne : iv ≠ [] := by
    intro h
    rw [h] at hivlen
    simp at hivlen
  have hsplit := splitSep_encrypt d ⟨hidne, hsepid, hsephex, hsepalgo⟩ v e p iv
  refine ⟨hsplit, ?_⟩
  rw [hsplit]
  intro fld hfld
  have hidne2 : d.id.data ≠ [] := fun h => hidne (String.ext h)
  have hct_ne : bytesToHex (xorKs d.cryptoKey iv 0 (mbBuild v e)) ≠ [] :=
    bytesToHex_ne_nil (xorKs_ne_nil (mbBuild_ne_nil v e))
  have hiv_ne : bytesToHex iv ≠ [] := bytesToHex_ne_nil hivne
  have htag_ne : bytesToHex (gcmTag d.cryptoKey iv (aadOf p)
      (xorKs d.cryptoKey iv 0 (mbBuild v e))) ≠ [] :=
    bytesToHex_ne_nil (gcmTag_ne_nil _ _ _ _)
  have hhmac_ne : hmacSign d.cryptoKey
      (bytesToHex (xorKs d.cryptoKey iv 0 (mbBuild v e)) ++
        d.separator :: bytesToHex iv) ≠ [] := hmacSign_ne_nil _ _
  have halgo_ne : ("aes256gcm".data : List Char) ≠ [] := by decide
  simp only [List.mem_cons, List.not_mem_nil, or_false] at hfld
  rcases hfld with h | h | h | h | h | h <;> rw [h]
  · exact hidne2
  · exact halgo_ne
  · exact hct_ne
  · exact hiv_ne
  · exact htag_ne
  · exact hhmac_ne

/-- C7 witness: the envelope structure evaluated on a concrete driver and
IV: exactly six fields, all non-empty. -/
theorem c7_envelope_fields_witness :
    (splitSep drv.separator (encrypt drv JVal.null none none iv0)).length = 6 ∧
      ∀ fld ∈ splitSep drv.separator (encrypt drv JVal.null none none iv0), fld ≠ [] := by
  obtain ⟨h1, h2⟩ := c7_envelope_fields drv (by decide) JVal.null none none iv0 (by decide)
  exact ⟨by rw [h1]; rfl, h2⟩

/-- C8: two encrypt calls on identical input that draw distinct 16-byte IVs
produce different envelopes, with different hex-ciphertext fields and
different hex-IV fields; encrypt is not deterministic across calls drawing
fresh IVs. -/
theorem c8_iv_freshness (d : Driver) (hd : GoodDriver d) (v : JVal) (e : Option Nat)
    (p : Option String) (iva ivb : List Nat) (h1 : GoodIV iva) (h2 : GoodIV ivb)
    (hne : iva ≠ ivb) :
    encrypt d v e p iva ≠ encrypt d v e p ivb ∧
      bytesToHex (xorKs d.cryptoKey iva 0 (mbBuild v e))
        ≠ bytesToHex (xorKs d.cryptoKey ivb 0 (mbBuild v e)) ∧
      bytesToHex iva ≠ bytesToHex ivb := by
  have hpt : 16 ≤ (mbBuild v e).length := mbBuild_length_ge v e
  have hct_ne := xorKs_ne_of_iv_ne d.cryptoKey h1 h2 hne (mbBuild v e) hpt
  have hct1 : ∀ b ∈ xorKs d.cryptoKey iva 0 (mbBuild v e), b < 256 :=
    xorKs_mem_lt (fun b hb => mbBuild_mem_lt hb)
  have hct2 : ∀ b ∈ xorKs d.cryptoKey ivb 0 (mbBuild v e), b < 256 :=
    xorKs_mem_lt (fun b hb => mbBuild_mem_lt hb)
  have hcthex : bytesToHex (xorKs d.cryptoKey iva 0 (mbBuild v e))
      ≠ bytesToHex (xorKs d.cryptoKey ivb 0 (mbBuild v e)) :=
    fun heq => hct_ne (bytesToHex_injOn hct1 hct2 heq)
  have hivhex : bytesToHex iva ≠ bytesToHex ivb :=
    fun heq => hne (bytesToHex_injOn h1.2 h2.2 heq)
  refine ⟨?_, hcthex, hivhex⟩
  intro heq
  have hsp := congrArg (splitSep d.separator) heq
  rw [splitSep_encrypt d hd v e p iva, splitSep_encrypt d hd v e p ivb] at hsp
  have h4 := congrArg (fun l : List (List Char) => l.getD 3 []) hsp
  exact hivhex h4

/-- C8 witness: two concrete distinct IVs give different envelopes and
different ciphertext and IV fields. -/
theorem c8_iv_freshness_witness :
    encrypt drv JVal.null none none iv0 ≠ encrypt drv JVal.null none none iv1 ∧
      bytesToHex (xorKs drv.cryptoKey iv0 0 (mbBuild JVal.null none))
        ≠ bytesToHex (xorKs drv.cryptoKey iv1 0 (mbBuild JVal.null none)) ∧
      bytesToHex iv0 ≠ bytesToHex iv1 :=
  c8_iv_freshness drv (by decide) JVal.null none none iv0 iv1 (by decide) (by decide)
    (by decide)

/-- C9: decrypt ignores separator-delimited fields past the sixth: whenever
decrypt accepts a string, appending the separator plus arbitrary extra text
yields the same result, because only the first six split fields are
consumed. -/
theorem c9_extra_fields (d : Driver) (value extra : List Char) (p : Option String)
    (now : Nat) (h : decrypt d value p now ≠ none) :
    decrypt d (value ++ d.separator :: extra) p now = decrypt d value p now :=
  decrypt_append_extra d value extra p now h

/-- C9 witness: trailing junk after a concrete valid envelope is ignored. -/
theorem c9_extra_fields_witness :
    decrypt drv (encrypt drv JVal.null none none iv0) none 0 ≠ none ∧
      decrypt drv (encrypt drv JVal.null none none iv0 ++ drv.separator :: "junk".data)
          none 0
        = decrypt drv (encrypt drv JVal.null none none iv0) none 0 := by
  have h := decrypt_encrypt_roundtrip drv (by decide) JVal.null none none rfl iv0 (by decide) 0
  have hne : decrypt drv (encrypt drv JVal.null none none iv0) none 0 ≠ none := by
    rw [h]
    exact Option.some_ne_none _
  exact ⟨hne, c9_extra_fields drv _ _ none 0 hne⟩

/-- C10: the empty string is not a usable purpose: encrypt with purpose ""
produces the same envelope (same IV) as encrypt with no purpose, decrypt
with purpose "" behaves identically to decrypt with no purpose, and
decrypt (encrypt v, purpose "") with no purpose returns the value. -/
theorem c10_empty_purpose (d : Driver) :
    (∀ (v : JVal) (e : Option Nat) (iv : List Nat),
        encrypt d v e (some "") iv = encrypt d v e none iv) ∧
      (∀ (value : List Char) (now : Nat),
        decrypt d value (some "") now = decrypt d value none now) ∧
      (∀ (v : JVal) (iv : List Nat), GoodDriver d → GoodIV iv → ∀ now : Nat,
        decrypt d (encrypt d v none (some "") iv) none now = some v) := by
  refine ⟨?_, ?_, ?_⟩
  · intro v e iv
    rfl
  · intro value now
    rfl
  · intro v iv hd hiv now
    exact decrypt_encrypt_roundtrip d hd v (some "") none rfl iv hiv now

/-- C10 witness: the empty purpose evaluated on concrete inputs. -/
theorem c10_empty_purpose_witness :
    encrypt drv JVal.null none (some "") iv0 = encrypt drv JVal.null none none iv0 ∧
      decrypt drv "abc".data (some "") 0 = decrypt drv "abc".data none 0 ∧
      decrypt drv (encrypt drv v0 none (some "") iv0) none 0 = some v0 := by
  obtain ⟨h1, h2, h3⟩ := c10_empty_purpose drv
  exact ⟨h1 JVal.null none iv0, h2 "abc".data 0, h3 v0 iv0 (by decide) (by decide) 0⟩

end AdonisEnc
